import Mathlib

/-!
Verification development for the go-lumber v2 protocol reader
(`v2/reader.go`, shallowly embedded below) and the `lj` batch/ACK entity
(`lj/lj.go`).

Embedding conventions:
* Bytes are `Nat` (values < 256 are never assumed unless needed), byte
  streams are `List Nat`.
* The connection's read-deadline behaviour is made explicit: a `Stream`
  carries a `timed` flag; running out of bytes on a timed stream models the
  read deadline expiring (Go returns a timeout error), while running out on
  an untimed stream models EOF / connection close.  Calls to
  `SetReadDeadline` are recorded in an explicit action trace returned by
  `ReadBatch`.
* zlib decompression is abstracted by a function
  `inflate : List Nat → Option (List Nat × Nat)` mapping the bytes of the
  length-bounded compressed view to the decompressed byte stream together
  with the number of compressed bytes actually consumed by the
  decompressor (`none` models a zlib error).  The reader can never consume
  more bytes than the bounded view offers, hence the `min` clamp.
* Go slices of events become `List (List Nat)`; the reusable decode buffer
  is represented by its length (the payload bytes themselves are pure
  values, so "copying out of the buffer" is value equality in the model).
* The event-reading loop `for len(events) < cap(events)` is embedded with a
  `fuel` parameter bounding the number of frame-dispatch steps, so the
  recursion is structural; theorems quantify over any sufficient fuel.
  `readCompressed` receives the nested event reader as a function argument
  (in Go it calls `r.readEvents` on the decompressed sub-stream directly).
-/

namespace GoLumber

/-- Modelled from the spec: the protocol constant bytes live in the external
`protocol/v2` package (not part of the shown source).  The spec fixes them as
a protocol-version marker byte and distinct frame-type discriminator bytes
(window-size, JSON data frame, compressed frame); the concrete values are the
ASCII codes used by lumberjack v2. -/
def CodeVersion : Nat := 50

/-- Modelled from the spec: window-size frame type byte ('W'). -/
def CodeWindowSize : Nat := 87

/-- Modelled from the spec: JSON data frame type byte ('J'). -/
def CodeJSONDataFrame : Nat := 74

/-- Modelled from the spec: compressed frame type byte ('C'). -/
def CodeCompressed : Nat := 67

/-- Errors a read can produce (`ErrProtocolError`, io EOF / unexpected EOF,
read-deadline timeout, zlib failure, and exhaustion of the fuel bound of the
embedding). -/
inductive RErr where
  | protocolErr : RErr
  | eofErr : RErr
  | timeoutErr : RErr
  | zlibErr : RErr
  | fuelOut : RErr
deriving DecidableEq

/-- A byte source: the remaining bytes, and whether a read deadline is armed
(`timed = true` means exhausting the bytes yields a timeout error; `timed =
false` means exhausting them yields EOF).  The decompressed sub-streams fed
to the nested event reader are untimed pure lists. -/
structure Stream where
  bytes : List Nat
  timed : Bool
deriving DecidableEq

/-- `readFull(in, buf)` fills the buffer completely or fails; a short read is
a hard error.  On a stream with an armed deadline the failure is the
deadline expiring. -/
def readFull (s : Stream) (n : Nat) : Except RErr (List Nat × Stream) :=
  if n ≤ s.bytes.length then
    .ok (s.bytes.take n, ⟨s.bytes.drop n, s.timed⟩)
  else if s.timed then .error .timeoutErr else .error .eofErr

/-- Big-endian decoding of a 4-byte string, as `binary.BigEndian.Uint32`. -/
def beU32 (bs : List Nat) : Nat :=
  match bs with
  | [a, b, c, d] => ((a * 256 + b) * 256 + c) * 256 + d
  | _ => 0

/-- Big-endian encoding of a 4-byte integer (used to build input streams in
the theorems below). -/
def enc32 (n : Nat) : List Nat :=
  [n / 16777216 % 256, n / 65536 % 256, n / 256 % 256, n % 256]

theorem enc32_length (n : Nat) : (enc32 n).length = 4 := rfl

theorem beU32_enc32 {n : Nat} (h : n < 4294967296) : beU32 (enc32 n) = n := by
  simp only [beU32, enc32]
  omega

/-- `reader.readJSONEvent`: read the 8-byte sub-header (4 ignored sequence
bytes, 4 payload-length bytes), grow the reusable buffer if the payload is
larger than it, read the payload and return an independent copy.  The buffer
is represented by its length `buf`. -/
def readJSONEvent (s : Stream) (buf : Nat) :
    Except RErr (List Nat × Stream × Nat) :=
  match readFull s 8 with
  | .error e => .error e
  | .ok (hdr, s1) =>
    let payloadSz := beU32 (hdr.drop 4)
    let buf1 := if buf < payloadSz then payloadSz else buf
    match readFull s1 payloadSz with
    | .error e => .error e
    | .ok (payload, s2) => .ok (payload, s2, buf1)

/-- `reader.readCompressed`: read the 4-byte big-endian compressed length,
bound a view of the stream to that many bytes, decompress it, run the event
reader `re` on the decompressed sub-stream (in Go this is `r.readEvents`;
here the recursive reader is passed in, which keeps the embedding's
recursion structural), and finally drain all unread trailing bytes of the
bounded view before handing the outer stream back. -/
def readCompressed (inflate : List Nat → Option (List Nat × Nat))
    (re : Stream → List (List Nat) → Nat →
      Except RErr (List (List Nat) × Stream × Nat))
    (s : Stream) (events : List (List Nat)) (buf : Nat) :
    Except RErr (List (List Nat) × Stream × Nat) :=
  match readFull s 4 with
  | .error e => .error e
  | .ok (hdr, s1) =>
    let payloadSz := beU32 hdr
    let payload := s1.bytes.take payloadSz
    match inflate payload with
    | none => .error .zlibErr
    | some (inner, used) =>
      let used1 := min used payload.length
      match re ⟨inner, false⟩ events buf with
      | .error e => .error e
      | .ok (events1, _, buf1) =>
        .ok (events1,
          ⟨(s1.bytes.drop used1).drop (payloadSz - used1), s1.timed⟩, buf1)

/-- `reader.readEvents`: the count-based event loop
`for len(events) < cap(events)`.  Each iteration reads a 2-byte generic
frame header (version byte, type byte), dispatches on the type byte, and
either appends one data-frame event or lets a compressed frame fill the
rest of the shared budget.  `capa` is `cap(events)` (the window count);
`fuel` bounds the number of loop iterations of the embedding. -/
def readEvents (inflate : List Nat → Option (List Nat × Nat)) :
    Nat → Stream → List (List Nat) → Nat → Nat →
    Except RErr (List (List Nat) × Stream × Nat)
  | 0, s, events, capa, buf =>
    if events.length < capa then .error .fuelOut else .ok (events, s, buf)
  | fuel' + 1, s, events, capa, buf =>
    if events.length < capa then
      match readFull s 2 with
      | .error e => .error e
      | .ok (hdr, s1) =>
        if hdr.headI ≠ CodeVersion then .error .protocolErr
        else if hdr.tail.headI = CodeJSONDataFrame then
          match readJSONEvent s1 buf with
          | .error e => .error e
          | .ok (ev, s2, buf1) =>
            readEvents inflate fuel' s2 (events ++ [ev]) capa buf1
        else if hdr.tail.headI = CodeCompressed then
          match readCompressed inflate
              (fun s2 ev b => readEvents inflate fuel' s2 ev capa b)
              s1 events buf with
          | .error e => .error e
          | .ok (events1, s2, buf1) =>
            readEvents inflate fuel' s2 events1 capa buf1
        else .error .protocolErr
    else .ok (events, s, buf)

/-- The connection, as far as the reader observes it: either a plain
connection or a TLS connection exposing the handshake's verified chains
(each chain is a list of certificates; certificates are abstracted as
naturals). -/
inductive NetConn where
  | plain : NetConn
  | tls (verifiedChains : List (List Nat)) : NetConn
deriving DecidableEq

/-- The certificate-attachment logic of `ReadBatch`: on a TLS connection,
if there is exactly one verified chain and it holds exactly two certificates
then attach the first certificate of the first chain, otherwise attach
nothing; on a non-TLS connection attach nothing. -/
def extractCert (c : NetConn) : Option Nat :=
  match c with
  | .plain => none
  | .tls verifiedChains =>
    if verifiedChains.length = 1 ∧ verifiedChains.headI.length = 2 then
      some verifiedChains.headI.headI
    else none

/-- `lj.Batch`, as produced by the reader: the ordered event payloads and
the optional client certificate.  (The ACK channel is modelled separately
below as `AckChan`.) -/
structure Batch where
  events : List (List Nat)
  clientCert : Option Nat
deriving DecidableEq

/-- The `reader` state an individual `ReadBatch` call depends on: the
configured per-batch timeout, the connection (for certificate extraction),
the injected JSON decoder (stored but, as the theorems show, never used),
and the current length of the reusable decode buffer. -/
structure Reader where
  timeout : Nat
  conn : NetConn
  decoder : List Nat → Option (List Nat)
  bufLen : Nat

/-- `newReader`: buffer starts empty (`make([]byte, 0, 64)` has length 0). -/
def newReader (c : NetConn) (tmo : Nat) (d : List Nat → Option (List Nat)) :
    Reader :=
  ⟨tmo, c, d, 0⟩

/-- A `SetReadDeadline` call: clearing the deadline, or arming it `d` time
units from now. -/
inductive DLAction where
  | clear : DLAction
  | set (d : Nat) : DLAction
deriving DecidableEq

/-- `reader.ReadBatch`: clear the read deadline, read the 6-byte window
frame, apply the source's window-header check (note: the Go source combines
the two byte comparisons with `&&`), return the heartbeat result on a zero
count, otherwise arm the per-batch deadline and run the event loop; on
success attach the certificate and build the Batch.  Returns the
`SetReadDeadline` trace alongside (result, remaining stream bytes, new
buffer length). -/
def ReadBatch (inflate : List Nat → Option (List Nat × Nat)) (fuel : Nat)
    (r : Reader) (bytes : List Nat) :
    List DLAction × Except RErr (Option Batch × List Nat × Nat) :=
  match readFull ⟨bytes, false⟩ 6 with
  | .error e => ([DLAction.clear], .error e)
  | .ok (win, s1) =>
    if win.headI ≠ CodeVersion ∧ win.tail.headI ≠ CodeWindowSize then
      ([DLAction.clear], .error .protocolErr)
    else
      let count := beU32 (win.drop 2)
      if count = 0 then ([DLAction.clear], .ok (none, s1.bytes, r.bufLen))
      else
        match readEvents inflate fuel ⟨s1.bytes, true⟩ [] count r.bufLen with
        | .error e =>
          ([DLAction.clear, DLAction.set r.timeout], .error e)
        | .ok (events, s2, buf1) =>
          ([DLAction.clear, DLAction.set r.timeout],
            .ok (some ⟨events, extractCert r.conn⟩, s2.bytes, buf1))

/-! ### Basic facts about the frame primitives -/

theorem readFull_ok (l : List Nat) (tm : Bool) (n : Nat) (h : n ≤ l.length) :
    readFull ⟨l, tm⟩ n = .ok (l.take n, ⟨l.drop n, tm⟩) := by
  unfold readFull
  simp [h]

theorem readFull_append {a : List Nat} (b : List Nat) (tm : Bool) {n : Nat}
    (h : a.length = n) :
    readFull ⟨a ++ b, tm⟩ n = .ok (a, ⟨b, tm⟩) := by
  rw [readFull_ok (a ++ b) tm n (by simp [← h]), List.take_left' h,
    List.drop_left' h]

theorem readFull_shape {s : Stream} {n : Nat} {b : List Nat} {s' : Stream}
    (h : readFull s n = .ok (b, s')) :
    b = s.bytes.take n ∧ s' = ⟨s.bytes.drop n, s.timed⟩ ∧ n ≤ s.bytes.length := by
  unfold readFull at h
  split at h
  · next hle =>
    refine ⟨?_, ?_, hle⟩ <;> injection h with h1 <;> injection h1 with h2 h3
    · exact h2.symm
    · exact h3.symm
  · split at h <;> exact absurd h (by simp)

/-- The identity codec: a "decompressor" that returns the bounded view
unchanged, consuming all of it.  Used to instantiate the abstract zlib
interface on concrete witness inputs. -/
def idInflate (b : List Nat) : Option (List Nat × Nat) := some (b, b.length)

/-- The matching "compressor" for `idInflate`. -/
def idDeflate (b : List Nat) : List Nat := b

theorem idRoundTrip :
    ∀ x, idInflate (idDeflate x) = some (x, (idDeflate x).length) :=
  fun _ => rfl

/-! ### Valid single-window streams

`Wire` describes exactly the frame sequences the count-based loop accepts
for one window: zero or more data frames, optionally finished by one
compressed frame that carries all remaining events of the window (the
remaining-count budget is shared with the nested sub-stream, so once a
compressed frame returns, the budget is full and the loop exits). -/

inductive Wire where
  | nil : Wire
  | data (seq : Nat) (payload : List Nat) (rest : Wire) : Wire
  | comp (inner : Wire) : Wire

/-- The event payloads a `Wire` delivers, in wire order. -/
def wireEvents : Wire → List (List Nat)
  | .nil => []
  | .data _ p rest => p :: wireEvents rest
  | .comp inner => wireEvents inner

/-- Serialize a `Wire` to bytes; compressed frames are produced with the
given compressor. -/
def encodeWire (deflate : List Nat → List Nat) : Wire → List Nat
  | .nil => []
  | .data seq p rest =>
    CodeVersion :: CodeJSONDataFrame ::
      (enc32 seq ++ (enc32 p.length ++ (p ++ encodeWire deflate rest)))
  | .comp inner =>
    CodeVersion :: CodeCompressed ::
      (enc32 (deflate (encodeWire deflate inner)).length ++
        deflate (encodeWire deflate inner))

/-- A fuel bound sufficient for the embedding's event loop to consume the
whole `Wire`. -/
def wireFuel : Wire → Nat
  | .nil => 0
  | .data _ _ rest => wireFuel rest + 1
  | .comp inner => wireFuel inner + 1

/-- The decode-buffer length after reading a `Wire`, starting from `buf`
(mirrors the growth step of `readJSONEvent`). -/
def wireBuf (buf : Nat) : Wire → Nat
  | .nil => buf
  | .data _ p rest => wireBuf (if buf < p.length then p.length else buf) rest
  | .comp inner => wireBuf buf inner

/-- Well-formedness of a `Wire`: all 4-byte length fields fit in 32 bits,
and a compressed frame delivers at least one event (the loop only enters a
frame while the budget is not yet full). -/
def wireOK (deflate : List Nat → List Nat) : Wire → Prop
  | .nil => True
  | .data _ p rest => p.length < 4294967296 ∧ wireOK deflate rest
  | .comp inner =>
    (deflate (encodeWire deflate inner)).length < 4294967296 ∧
      wireEvents inner ≠ [] ∧ wireOK deflate inner

/-- A window delivered purely as uncompressed data frames. -/
def flatWire : List (List Nat) → Wire
  | [] => .nil
  | p :: ps => .data 0 p (flatWire ps)

theorem wireEvents_flatWire (l : List (List Nat)) :
    wireEvents (flatWire l) = l := by
  induction l with
  | nil => rfl
  | cons p ps ih => simp [flatWire, wireEvents, ih]

/-! ### Step lemmas for the event loop -/

theorem readEvents_stop (inflate : List Nat → Option (List Nat × Nat))
    (fuel : Nat) (s : Stream) (events : List (List Nat)) (capa buf : Nat)
    (h : ¬ events.length < capa) :
    readEvents inflate fuel s events capa buf = .ok (events, s, buf) := by
  cases fuel with
  | zero => rw [readEvents, if_neg h]
  | succ f => rw [readEvents, if_neg h]

theorem readEvents_data_step (inflate : List Nat → Option (List Nat × Nat))
    (f : Nat) (tm : Bool) (seq : Nat) (p t : List Nat)
    (acc : List (List Nat)) (capa buf : Nat)
    (hlt : acc.length < capa) (hp : p.length < 4294967296) :
    readEvents inflate (f + 1)
        ⟨CodeVersion :: CodeJSONDataFrame ::
          (enc32 seq ++ (enc32 p.length ++ (p ++ t))), tm⟩ acc capa buf =
      readEvents inflate f ⟨t, tm⟩ (acc ++ [p]) capa
        (if buf < p.length then p.length else buf) := by
  have h2 : readFull
      ⟨CodeVersion :: CodeJSONDataFrame ::
        (enc32 seq ++ (enc32 p.length ++ (p ++ t))), tm⟩ 2 =
      .ok ([CodeVersion, CodeJSONDataFrame],
        ⟨enc32 seq ++ (enc32 p.length ++ (p ++ t)), tm⟩) :=
    @readFull_append [CodeVersion, CodeJSONDataFrame]
      (enc32 seq ++ (enc32 p.length ++ (p ++ t))) tm 2 rfl
  have h8 : readFull ⟨enc32 seq ++ (enc32 p.length ++ (p ++ t)), tm⟩ 8 =
      .ok (enc32 seq ++ enc32 p.length, ⟨p ++ t, tm⟩) := by
    rw [← List.append_assoc]
    exact readFull_append _ tm (by simp [enc32])
  have hpl : readFull ⟨p ++ t, tm⟩ p.length = .ok (p, ⟨t, tm⟩) :=
    readFull_append _ tm rfl
  rw [readEvents, if_pos hlt]
  rw [h2]
  simp only [List.headI, List.tail_cons, ne_eq, if_true]
  unfold readJSONEvent
  rw [h8]
  simp only [List.drop_left' (enc32_length seq), beU32_enc32 hp]
  rw [hpl]
  simp

theorem readEvents_comp_step (inflate : List Nat → Option (List Nat × Nat))
    (f : Nat) (tm : Bool) (z inner t : List Nat)
    (acc : List (List Nat)) (capa buf : Nat)
    (hlt : acc.length < capa) (hz : z.length < 4294967296)
    (hinf : inflate z = some (inner, z.length)) :
    readEvents inflate (f + 1)
        ⟨CodeVersion :: CodeCompressed ::
          (enc32 z.length ++ (z ++ t)), tm⟩ acc capa buf =
      match readEvents inflate f ⟨inner, false⟩ acc capa buf with
      | .error e => .error e
      | .ok (acc1, _, b1) => readEvents inflate f ⟨t, tm⟩ acc1 capa b1 := by
  have h2 : readFull
      ⟨CodeVersion :: CodeCompressed ::
        (enc32 z.length ++ (z ++ t)), tm⟩ 2 =
      .ok ([CodeVersion, CodeCompressed],
        ⟨enc32 z.length ++ (z ++ t), tm⟩) :=
    @readFull_append [CodeVersion, CodeCompressed]
      (enc32 z.length ++ (z ++ t)) tm 2 rfl
  have h4 : readFull ⟨enc32 z.length ++ (z ++ t), tm⟩ 4 =
      .ok (enc32 z.length, ⟨z ++ t, tm⟩) :=
    readFull_append _ tm rfl
  rw [readEvents, if_pos hlt]
  rw [h2]
  simp only [List.headI, List.tail_cons, ne_eq, if_true]
  unfold readCompressed
  rw [h4]
  simp only [beU32_enc32 hz, List.take_left]
  rw [hinf]
  simp only [not_true, if_false,
    if_neg (by decide : ¬(CodeCompressed = CodeJSONDataFrame)),
    min_self, Nat.sub_self, List.drop_zero, List.drop_left]
  cases hX : readEvents inflate f ⟨inner, false⟩ acc capa buf with
  | error e => rfl
  | ok v => rcases v with ⟨acc1, s1, b1⟩; rfl

/-- Main decode lemma: on the serialization of a well-formed `Wire` whose
event count exactly fills the remaining budget, the event loop returns all
its events in wire order, leaves the trailing bytes untouched, and grows the
buffer as `wireBuf` prescribes. -/
theorem readEvents_encodeWire (inflate : List Nat → Option (List Nat × Nat))
    (deflate : List Nat → List Nat)
    (hrt : ∀ x, inflate (deflate x) = some (x, (deflate x).length)) :
    ∀ (w : Wire) (fuel : Nat) (tm : Bool) (extra : List Nat)
      (acc : List (List Nat)) (capa buf : Nat),
      wireOK deflate w → wireFuel w ≤ fuel →
      acc.length + (wireEvents w).length = capa →
      readEvents inflate fuel ⟨encodeWire deflate w ++ extra, tm⟩
          acc capa buf =
        .ok (acc ++ wireEvents w, ⟨extra, tm⟩, wireBuf buf w) := by
  intro w
  induction w with
  | nil =>
    intro fuel tm extra acc capa buf _ _ hc
    simp only [wireEvents, List.length_nil, Nat.add_zero] at hc
    simp only [encodeWire, List.nil_append, wireEvents, List.append_nil,
      wireBuf]
    exact readEvents_stop inflate fuel ⟨extra, tm⟩ acc capa buf (by omega)
  | data seq p rest ih =>
    intro fuel tm extra acc capa buf hok hf hc
    obtain ⟨hp, hrest⟩ := hok
    simp only [wireFuel] at hf
    obtain ⟨f, rfl⟩ : ∃ f, fuel = f + 1 := ⟨fuel - 1, by omega⟩
    simp only [wireEvents, List.length_cons] at hc
    have hlt : acc.length < capa := by omega
    simp only [encodeWire, List.cons_append, List.append_assoc]
    rw [readEvents_data_step inflate f tm seq p
      (encodeWire deflate rest ++ extra) acc capa buf hlt hp]
    rw [ih f tm extra (acc ++ [p]) capa
      (if buf < p.length then p.length else buf) hrest (by omega)
      (by simp; omega)]
    simp [wireEvents, wireBuf]
  | comp inner ih =>
    intro fuel tm extra acc capa buf hok hf hc
    obtain ⟨hz, hne, hinner⟩ := hok
    simp only [wireFuel] at hf
    obtain ⟨f, rfl⟩ : ∃ f, fuel = f + 1 := ⟨fuel - 1, by omega⟩
    simp only [wireEvents] at hc
    have hpos : 0 < (wireEvents inner).length := List.length_pos.mpr hne
    have hlt : acc.length < capa := by omega
    simp only [encodeWire, List.cons_append, List.append_assoc]
    rw [readEvents_comp_step inflate f tm
      (deflate (encodeWire deflate inner)) (encodeWire deflate inner)
      extra acc capa buf hlt hz (hrt (encodeWire deflate inner))]
    have hin := ih f false [] acc capa buf hinner (by omega) hc
    rw [List.append_nil] at hin
    rw [hin]
    dsimp only
    rw [readEvents_stop inflate f ⟨extra, tm⟩ (acc ++ wireEvents inner)
      capa (wireBuf buf inner) (by simp; omega)]
    simp [wireEvents, wireBuf]

/-- `ReadBatch` on a well-formed single-window stream: the window header
declares the `Wire`'s event count, the whole window is decoded into a Batch
carrying exactly those events in wire order plus the extracted certificate,
the per-batch deadline is armed once, the trailing bytes are untouched, and
the buffer grows as `wireBuf` prescribes. -/
theorem ReadBatch_encodeWire (inflate : List Nat → Option (List Nat × Nat))
    (deflate : List Nat → List Nat)
    (hrt : ∀ x, inflate (deflate x) = some (x, (deflate x).length))
    (w : Wire) (r : Reader) (fuel : Nat) (extra : List Nat)
    (hok : wireOK deflate w) (hne : wireEvents w ≠ [])
    (hcnt : (wireEvents w).length < 4294967296)
    (hf : wireFuel w ≤ fuel) :
    ReadBatch inflate fuel r
        (CodeVersion :: CodeWindowSize ::
          (enc32 (wireEvents w).length ++ (encodeWire deflate w ++ extra))) =
      ([DLAction.clear, DLAction.set r.timeout],
        .ok (some ⟨wireEvents w, extractCert r.conn⟩, extra,
          wireBuf r.bufLen w)) := by
  have h6 : readFull
      ⟨CodeVersion :: CodeWindowSize ::
        (enc32 (wireEvents w).length ++ (encodeWire deflate w ++ extra)),
        false⟩ 6 =
      .ok (CodeVersion :: CodeWindowSize :: enc32 (wireEvents w).length,
        ⟨encodeWire deflate w ++ extra, false⟩) :=
    @readFull_append
      (CodeVersion :: CodeWindowSize :: enc32 (wireEvents w).length)
      (encodeWire deflate w ++ extra) false 6 (by simp [enc32])
  unfold ReadBatch
  rw [h6]
  simp only [List.headI, List.tail_cons, ne_eq, not_true, false_and,
    if_false, List.drop_succ_cons, List.drop_zero]
  rw [beU32_enc32 hcnt]
  rw [if_neg (by simpa using hne)]
  rw [readEvents_encodeWire inflate deflate hrt w fuel true extra []
    (wireEvents w).length r.bufLen hok hf (by simp)]
  simp

/-! ### The Batch ACK/Await entity (`lj/lj.go`)

`Batch.ack` is a `chan struct{}` created open by `NewBatch`; `ACK()` closes
it, and closing an already-closed Go channel panics; `Await()` returns the
channel, and a receive on it completes exactly when the channel has been
closed.  The channel is modelled by its only observable state (closed or
not); a panic is modelled by `none`. -/

structure AckChan where
  closed : Bool
deriving DecidableEq

/-- `NewBatch` allocates the ack channel open. -/
def newAckChan : AckChan := ⟨false⟩

/-- `Batch.ACK()` = `close(b.ack)`: closing an open channel closes it,
closing a closed channel panics (`none`). -/
def ackClose (c : AckChan) : Option AckChan :=
  if c.closed then none else some ⟨true⟩

/-- An `Await()` observer sees completion exactly when the channel is
closed. -/
def awaitDone (c : AckChan) : Bool := c.closed

/-- Operations a Batch owner can perform on the ack signal. -/
inductive BatchOp where
  | ack : BatchOp
deriving DecidableEq

/-- One operation step; a previous panic is absorbing. -/
def ackStep (st : Option AckChan) (op : BatchOp) : Option AckChan :=
  match st, op with
  | none, _ => none
  | some c, .ack => ackClose c

/-- Run a sequence of operations on a freshly created Batch's ack channel. -/
def runOps (ops : List BatchOp) : Option AckChan :=
  ops.foldl ackStep (some newAckChan)

theorem foldl_ackStep_none (ops : List BatchOp) :
    ops.foldl ackStep none = none := by
  induction ops with
  | nil => rfl
  | cons op rest ih => simpa [ackStep] using ih

theorem foldl_ackStep_closed (ops : List BatchOp) :
    ∀ c, ops.foldl ackStep (some ⟨true⟩) = some c → c = (⟨true⟩ : AckChan) := by
  induction ops with
  | nil => intro c h; injection h with h; exact h.symm
  | cons op rest ih =>
    intro c h
    cases op
    simp only [List.foldl_cons, ackStep, ackClose, if_pos] at h
    rw [foldl_ackStep_none] at h
    cases h

/-- C6: an `Await()` observer sees completion exactly when `ACK()` occurred
in the operation history of that Batch (in particular never before / without
an `ACK()`); a single `ACK()` succeeds; a second `ACK()` panics instead of
silently succeeding. -/
theorem C6_ack_once_await (ops : List BatchOp) (c : AckChan)
    (h : runOps ops = some c) :
    (awaitDone c = true ↔ BatchOp.ack ∈ ops) ∧
      runOps [BatchOp.ack] = some ⟨true⟩ ∧
      runOps [BatchOp.ack, BatchOp.ack] = none := by
  refine ⟨?_, rfl, rfl⟩
  cases ops with
  | nil =>
    have hc : c = newAckChan := by injection h with h; exact h.symm
    subst hc
    simp [awaitDone, newAckChan]
  | cons op rest =>
    cases op
    have hstep : runOps (BatchOp.ack :: rest) =
        rest.foldl ackStep (some ⟨true⟩) := by
      simp [runOps, ackStep, ackClose, newAckChan]
    rw [hstep] at h
    have hc := foldl_ackStep_closed rest c h
    subst hc
    simp [awaitDone]

/-- C6 witness: the theorem applied to the one-ACK history. -/
theorem C6_ack_once_await_witness :
    (awaitDone ⟨true⟩ = true ↔ BatchOp.ack ∈ [BatchOp.ack]) ∧
      runOps [BatchOp.ack] = some ⟨true⟩ ∧
      runOps [BatchOp.ack, BatchOp.ack] = none :=
  C6_ack_once_await [BatchOp.ack] ⟨true⟩ rfl

/-- C1: code bug.  The window-header check in the source combines the two
byte comparisons with `&&` (`win[0] != CodeVersion && win[1] !=
CodeWindowSize`), so a frame whose version byte is correct but whose type
byte is not the window-size code is accepted as a window frame.  Here the
first frame carries the data-frame type byte `CodeJSONDataFrame` in the
type slot, yet `ReadBatch` returns the heartbeat result instead of the
protocol error the spec requires. -/
theorem C1_window_type_mismatch_accepted :
    ReadBatch idInflate 1 (newReader .plain 5 (fun _ => none))
        [CodeVersion, CodeJSONDataFrame, 0, 0, 0, 0] =
      ([DLAction.clear], .ok (none, [], 0)) := rfl

/-- C4: a window frame with count 0 yields the heartbeat result: no batch,
no error, no deadline armed, and no byte beyond the 6-byte window frame is
consumed. -/
theorem C4_zero_count_heartbeat (inflate : List Nat → Option (List Nat × Nat))
    (fuel : Nat) (r : Reader) (rest : List Nat) :
    ReadBatch inflate fuel r
        (CodeVersion :: CodeWindowSize :: 0 :: 0 :: 0 :: 0 :: rest) =
      ([DLAction.clear], .ok (none, rest, r.bufLen)) := by
  have h6 : readFull
      ⟨CodeVersion :: CodeWindowSize :: 0 :: 0 :: 0 :: 0 :: rest, false⟩ 6 =
      .ok ([CodeVersion, CodeWindowSize, 0, 0, 0, 0], ⟨rest, false⟩) :=
    @readFull_append [CodeVersion, CodeWindowSize, 0, 0, 0, 0] rest false 6 rfl
  unfold ReadBatch
  rw [h6]
  simp [beU32]

/-- C10: the injected JSON decoder stored in the reader is never invoked:
the outcome of `ReadBatch` (events, stream position, buffer, deadline
trace) is identical for any two decoders, on every input. -/
theorem C10_decoder_never_invoked (inflate : List Nat → Option (List Nat × Nat))
    (fuel : Nat) (r : Reader) (d : List Nat → Option (List Nat))
    (bytes : List Nat) :
    ReadBatch inflate fuel { r with decoder := d } bytes =
      ReadBatch inflate fuel r bytes := rfl

/-- C2: for every valid single-window stream declaring count `K =
(wireEvents w).length > 0` and delivering its `K` events as data frames,
compressed frames or a mix (`Wire` is exactly the set of frame sequences
the count-based loop accepts: the remaining-count budget is shared with a
compressed frame's sub-stream, so a compressed frame carries all remaining
events), `ReadBatch` returns a Batch with exactly those `K` events in wire
order and consumes nothing beyond the window. -/
theorem C2_count_based_event_loop
    (inflate : List Nat → Option (List Nat × Nat))
    (deflate : List Nat → List Nat)
    (hrt : ∀ x, inflate (deflate x) = some (x, (deflate x).length))
    (w : Wire) (r : Reader) (fuel : Nat) (extra : List Nat)
    (hok : wireOK deflate w) (hne : wireEvents w ≠ [])
    (hcnt : (wireEvents w).length < 4294967296)
    (hf : wireFuel w ≤ fuel) :
    ReadBatch inflate fuel r
        (CodeVersion :: CodeWindowSize ::
          (enc32 (wireEvents w).length ++ (encodeWire deflate w ++ extra))) =
      ([DLAction.clear, DLAction.set r.timeout],
        .ok (some ⟨wireEvents w, extractCert r.conn⟩, extra,
          wireBuf r.bufLen w)) :=
  ReadBatch_encodeWire inflate deflate hrt w r fuel extra hok hne hcnt hf

/-- A small mixed window used by the witnesses: one data frame followed by
a compressed frame carrying the remaining event. -/
def wMix : Wire := .data 7 [1, 2] (.comp (.data 9 [3] .nil))

/-- C2 witness: the theorem applied to the mixed two-event window. -/
theorem C2_count_based_event_loop_witness :
    ReadBatch idInflate 3 ⟨11, .plain, (fun _ => none), 0⟩
        (CodeVersion :: CodeWindowSize ::
          (enc32 (wireEvents wMix).length ++
            (encodeWire idDeflate wMix ++ [5]))) =
      ([DLAction.clear, DLAction.set 11],
        .ok (some ⟨[[1, 2], [3]], none⟩, [5], 2)) :=
  C2_count_based_event_loop idInflate idDeflate idRoundTrip wMix
    ⟨11, .plain, (fun _ => none), 0⟩ 3 [5]
    (by norm_num [wMix, wireOK, wireEvents, encodeWire, idDeflate, enc32_length])
    (by simp [wMix, wireEvents])
    (by norm_num [wMix, wireEvents])
    (by norm_num [wMix, wireFuel])

/-- C3: the same event payloads delivered inside one compressed frame or as
plain data frames decode to the same event sequence `l`, byte for byte and
in the same order. -/
theorem C3_compressed_matches_flat
    (inflate : List Nat → Option (List Nat × Nat))
    (deflate : List Nat → List Nat)
    (hrt : ∀ x, inflate (deflate x) = some (x, (deflate x).length))
    (l : List (List Nat)) (r1 r2 : Reader) (f1 f2 : Nat)
    (e1 e2 : List Nat)
    (hok : wireOK deflate (.comp (flatWire l)))
    (hcnt : l.length < 4294967296)
    (hf1 : wireFuel (flatWire l) + 1 ≤ f1)
    (hf2 : wireFuel (flatWire l) ≤ f2) :
    ReadBatch inflate f1 r1
        (CodeVersion :: CodeWindowSize ::
          (enc32 l.length ++
            (encodeWire deflate (.comp (flatWire l)) ++ e1))) =
      ([DLAction.clear, DLAction.set r1.timeout],
        .ok (some ⟨l, extractCert r1.conn⟩, e1,
          wireBuf r1.bufLen (flatWire l))) ∧
    ReadBatch inflate f2 r2
        (CodeVersion :: CodeWindowSize ::
          (enc32 l.length ++ (encodeWire deflate (flatWire l) ++ e2))) =
      ([DLAction.clear, DLAction.set r2.timeout],
        .ok (some ⟨l, extractCert r2.conn⟩, e2,
          wireBuf r2.bufLen (flatWire l))) := by
  obtain ⟨hz, hne, hfl⟩ := hok
  have hev : wireEvents (flatWire l) = l := wireEvents_flatWire l
  constructor
  · have h := ReadBatch_encodeWire inflate deflate hrt (.comp (flatWire l))
      r1 f1 e1 ⟨hz, hne, hfl⟩ (by simpa [wireEvents, hev] using hne)
      (by simpa [wireEvents, hev] using hcnt)
      (by simpa [wireFuel] using hf1)
    simpa [wireEvents, wireBuf, hev] using h
  · have h := ReadBatch_encodeWire inflate deflate hrt (flatWire l)
      r2 f2 e2 hfl (by simpa [hev] using hne) (by simpa [hev] using hcnt)
      hf2
    simpa [hev] using h

/-- C3 witness: two payloads, compressed delivery versus flat delivery,
with the identity codec. -/
theorem C3_compressed_matches_flat_witness :
    ReadBatch idInflate 3 ⟨4, .plain, (fun _ => none), 0⟩
        (CodeVersion :: CodeWindowSize ::
          (enc32 2 ++
            (encodeWire idDeflate (.comp (flatWire [[4, 5], [6]])) ++ []))) =
      ([DLAction.clear, DLAction.set 4],
        .ok (some ⟨[[4, 5], [6]], none⟩, [],
          wireBuf 0 (flatWire [[4, 5], [6]]))) ∧
    ReadBatch idInflate 2 ⟨4, .plain, (fun _ => none), 0⟩
        (CodeVersion :: CodeWindowSize ::
          (enc32 2 ++ (encodeWire idDeflate (flatWire [[4, 5], [6]]) ++ []))) =
      ([DLAction.clear, DLAction.set 4],
        .ok (some ⟨[[4, 5], [6]], none⟩, [],
          wireBuf 0 (flatWire [[4, 5], [6]]))) :=
  C3_compressed_matches_flat idInflate idDeflate idRoundTrip
    [[4, 5], [6]] ⟨4, .plain, (fun _ => none), 0⟩
    ⟨4, .plain, (fun _ => none), 0⟩ 3 2 [] []
    (by norm_num [wireOK, flatWire, wireEvents, encodeWire, idDeflate, enc32_length]; decide)
    (by norm_num) (by norm_num [flatWire, wireFuel])
    (by norm_num [flatWire, wireFuel])

/-- C5: a Batch returned by `ReadBatch` carries exactly the certificate the
extraction rule picks from the connection; the rule attaches a certificate
iff the connection is TLS with exactly one verified chain of exactly two
certificates, in which case it is the first certificate of the first chain,
and every other shape (including non-TLS) attaches none. -/
theorem C5_certificate_attachment
    (inflate : List Nat → Option (List Nat × Nat)) (fuel : Nat)
    (r : Reader) (bytes : List Nat) (tr : List DLAction) (b : Batch)
    (rest : List Nat) (bl : Nat) (chains : List (List Nat))
    (hrun : ReadBatch inflate fuel r bytes = (tr, .ok (some b, rest, bl))) :
    b.clientCert = extractCert r.conn ∧
      ((extractCert (.tls chains)).isSome = true ↔
        chains.length = 1 ∧ chains.headI.length = 2) ∧
      (chains.length = 1 → chains.headI.length = 2 →
        extractCert (.tls chains) = some chains.headI.headI) ∧
      extractCert .plain = none := by
  refine ⟨?_, ?_, ?_, rfl⟩
  · unfold ReadBatch at hrun
    split at hrun
    · simp at hrun
    · split at hrun
      · simp at hrun
      · simp only [] at hrun
        split at hrun
        · simp at hrun
        · split at hrun
          · simp at hrun
          · simp only [Prod.mk.injEq, Except.ok.injEq,
              Option.some.injEq] at hrun
            obtain ⟨-, hb, -⟩ := hrun
            rw [← hb]
  · constructor
    · intro h
      by_cases hc : chains.length = 1 ∧ chains.headI.length = 2
      · exact hc
      · rw [show extractCert (.tls chains) = none from by
          simp [extractCert, hc]] at h
        simp at h
    · intro hc
      simp [extractCert, hc.1, hc.2]
  · intro h1 h2
    simp [extractCert, h1, h2]

/-- C5 witness: a one-event batch over a TLS connection presenting one
two-certificate chain gets the leaf certificate attached. -/
theorem C5_certificate_attachment_witness :
    (Batch.mk [[9]] (some 3)).clientCert = extractCert (.tls [[3, 4]]) ∧
      ((extractCert (.tls [[3, 4]])).isSome = true ↔
        ([[3, 4]] : List (List Nat)).length = 1 ∧
          ([[3, 4]] : List (List Nat)).headI.length = 2) ∧
      (([[3, 4]] : List (List Nat)).length = 1 →
        ([[3, 4]] : List (List Nat)).headI.length = 2 →
        extractCert (.tls [[3, 4]]) =
          some ([[3, 4]] : List (List Nat)).headI.headI) ∧
      extractCert .plain = none :=
  C5_certificate_attachment idInflate 1 ⟨7, .tls [[3, 4]], (fun _ => none), 0⟩
    (CodeVersion :: CodeWindowSize ::
      (enc32 1 ++ (CodeVersion :: CodeJSONDataFrame ::
        (enc32 0 ++ (enc32 1 ++ ([9] ++ []))))))
    [DLAction.clear, DLAction.set 7] ⟨[[9]], some 3⟩ [] 1 [[3, 4]] (by rfl)

/-- C7: a compressed frame read without error consumes exactly `4 + N`
bytes of the outer stream, `N` being the declared 4-byte big-endian
compressed length — independently of how many bytes the decompressor
itself consumed, since the trailing remainder of the bounded view is
drained — and preserves the stream's deadline mode. -/
theorem C7_compressed_frame_consumption
    (inflate : List Nat → Option (List Nat × Nat))
    (re : Stream → List (List Nat) → Nat →
      Except RErr (List (List Nat) × Stream × Nat))
    (s : Stream) (acc : List (List Nat)) (buf N : Nat)
    (evs : List (List Nat)) (s' : Stream) (buf' : Nat)
    (hN : beU32 (s.bytes.take 4) = N)
    (hlen : 4 + N ≤ s.bytes.length)
    (h : readCompressed inflate re s acc buf = .ok (evs, s', buf')) :
    s'.bytes = s.bytes.drop (4 + N) ∧ s'.timed = s.timed := by
  have h4 : readFull s 4 =
      .ok (s.bytes.take 4, ⟨s.bytes.drop 4, s.timed⟩) := by
    cases s with
    | mk bs tmd => exact readFull_ok bs tmd 4 (by simp at hlen ⊢; omega)
  unfold readCompressed at h
  rw [h4] at h
  simp only [] at h
  rw [hN] at h
  have hplen : ((s.bytes.drop 4).take N).length = N := by
    simp only [List.length_take, List.length_drop]
    omega
  cases hinf : inflate ((s.bytes.drop 4).take N) with
  | none => rw [hinf] at h; cases h
  | some p =>
    obtain ⟨inner, used⟩ := p
    rw [hinf] at h
    simp only [] at h
    cases hre : re ⟨inner, false⟩ acc buf with
    | error e => simp only [hre] at h; cases h
    | ok v =>
      obtain ⟨e1, s1x, b1x⟩ := v
      simp only [hre] at h
      simp only [Except.ok.injEq, Prod.mk.injEq] at h
      obtain ⟨-, hs, -⟩ := h
      rw [← hs]
      rw [hplen] at *
      have hule : min used N ≤ N := Nat.min_le_right used N
      refine ⟨?_, rfl⟩
      simp only [List.drop_drop]
      congr 1
      omega

/-- C7 witness: the theorem applied to a concrete compressed frame
(declared length 11, deadline armed) followed by one trailing byte. -/
theorem C7_compressed_frame_consumption_witness :
    (Stream.mk [99] true).bytes =
      (Stream.mk
        (enc32 11 ++ ((CodeVersion :: CodeJSONDataFrame ::
          (enc32 0 ++ (enc32 1 ++ [7]))) ++ [99])) true).bytes.drop (4 + 11) ∧
      (Stream.mk [99] true).timed =
        (Stream.mk
          (enc32 11 ++ ((CodeVersion :: CodeJSONDataFrame ::
            (enc32 0 ++ (enc32 1 ++ [7]))) ++ [99])) true).timed :=
  C7_compressed_frame_consumption idInflate
    (fun st ev b => readEvents idInflate 1 st ev 1 b)
    ⟨enc32 11 ++ ((CodeVersion :: CodeJSONDataFrame ::
      (enc32 0 ++ (enc32 1 ++ [7]))) ++ [99]), true⟩
    [] 0 11 [[7]] ⟨[99], true⟩ 1 rfl (by norm_num [enc32]) (by rfl)

/-! ### Buffer growth invariants -/

theorem readJSONEvent_buf {s : Stream} {buf : Nat} {ev : List Nat}
    {s' : Stream} {buf' : Nat}
    (h : readJSONEvent s buf = .ok (ev, s', buf')) :
    buf ≤ buf' ∧ ev.length ≤ buf' := by
  unfold readJSONEvent at h
  cases h8 : readFull s 8 with
  | error e => rw [h8] at h; cases h
  | ok v =>
    obtain ⟨hdr, s1⟩ := v
    rw [h8] at h
    simp only [] at h
    cases hp : readFull s1 (beU32 (hdr.drop 4)) with
    | error e => rw [hp] at h; cases h
    | ok v2 =>
      obtain ⟨payload, s2⟩ := v2
      rw [hp] at h
      simp only [Except.ok.injEq, Prod.mk.injEq] at h
      obtain ⟨hev, -, hb⟩ := h
      obtain ⟨hpl, -, hple⟩ := readFull_shape hp
      have hlen : ev.length = beU32 (hdr.drop 4) := by
        rw [← hev, hpl, List.length_take]
        omega
      rw [← hb, hlen]
      split_ifs <;> omega

theorem readCompressed_ok_inv {inflate : List Nat → Option (List Nat × Nat)}
    {re : Stream → List (List Nat) → Nat →
      Except RErr (List (List Nat) × Stream × Nat)}
    {s : Stream} {events : List (List Nat)} {buf : Nat}
    {evs : List (List Nat)} {s' : Stream} {buf' : Nat}
    (h : readCompressed inflate re s events buf = .ok (evs, s', buf')) :
    ∃ inner s1, re ⟨inner, false⟩ events buf = .ok (evs, s1, buf') := by
  unfold readCompressed at h
  cases h4 : readFull s 4 with
  | error e => rw [h4] at h; cases h
  | ok v =>
    obtain ⟨hdr, s1⟩ := v
    rw [h4] at h
    simp only [] at h
    cases hinf : inflate (s1.bytes.take (beU32 hdr)) with
    | none => rw [hinf] at h; cases h
    | some p =>
      obtain ⟨inner, used⟩ := p
      rw [hinf] at h
      simp only [] at h
      cases hre : re ⟨inner, false⟩ events buf with
      | error e => rw [hre] at h; cases h
      | ok v2 =>
        obtain ⟨e1, s1x, b1x⟩ := v2
        rw [hre] at h
        simp only [Except.ok.injEq, Prod.mk.injEq] at h
        obtain ⟨he, -, hb⟩ := h
        exact ⟨inner, s1x, by rw [hre, he, hb]⟩

/-- Helper for C8: across the event loop the buffer length never shrinks,
and every event appended by the loop has payload length bounded by the
final buffer length. -/
theorem readEvents_buf (inflate : List Nat → Option (List Nat × Nat)) :
    ∀ (fuel : Nat) (s : Stream) (acc : List (List Nat)) (capa buf : Nat)
      (evs : List (List Nat)) (s' : Stream) (buf' : Nat),
      readEvents inflate fuel s acc capa buf = .ok (evs, s', buf') →
      buf ≤ buf' ∧ ∀ e ∈ evs, e ∈ acc ∨ e.length ≤ buf' := by
  intro fuel
  induction fuel with
  | zero =>
    intro s acc capa buf evs s' buf' h
    rw [readEvents] at h
    split at h
    · cases h
    · simp only [Except.ok.injEq, Prod.mk.injEq] at h
      obtain ⟨he, -, hb⟩ := h
      subst he
      subst hb
      exact ⟨Nat.le_refl _, fun e he2 => Or.inl he2⟩
  | succ f ih =>
    intro s acc capa buf evs s' buf' h
    rw [readEvents] at h
    split at h
    case isFalse =>
      simp only [Except.ok.injEq, Prod.mk.injEq] at h
      obtain ⟨he, -, hb⟩ := h
      subst he
      subst hb
      exact ⟨Nat.le_refl _, fun e he2 => Or.inl he2⟩
    case isTrue hlt =>
      cases h2 : readFull s 2 with
      | error e => rw [h2] at h; cases h
      | ok v =>
        obtain ⟨hdr, s1⟩ := v
        rw [h2] at h
        simp only [] at h
        by_cases hv : hdr.headI ≠ CodeVersion
        · rw [if_pos hv] at h; cases h
        · rw [if_neg hv] at h
          by_cases hj : hdr.tail.headI = CodeJSONDataFrame
          · rw [if_pos hj] at h
            cases hje : readJSONEvent s1 buf with
            | error e => rw [hje] at h; cases h
            | ok v2 =>
              obtain ⟨ev, s2, b1⟩ := v2
              rw [hje] at h
              simp only [] at h
              obtain ⟨hb1, hall⟩ := ih s2 (acc ++ [ev]) capa b1 evs s' buf' h
              obtain ⟨hbb, hevlen⟩ := readJSONEvent_buf hje
              refine ⟨Nat.le_trans hbb hb1, ?_⟩
              intro e he
              rcases hall e he with hmem | hlen
              · rcases List.mem_append.mp hmem with h1 | h2m
                · exact Or.inl h1
                · right
                  have hee : e = ev := by simpa using h2m
                  subst hee
                  exact Nat.le_trans hevlen hb1
              · exact Or.inr hlen
          · rw [if_neg hj] at h
            by_cases hcp : hdr.tail.headI = CodeCompressed
            · rw [if_pos hcp] at h
              cases hcc : readCompressed inflate
                  (fun s2 ev b => readEvents inflate f s2 ev capa b)
                  s1 acc buf with
              | error e => rw [hcc] at h; cases h
              | ok v2 =>
                obtain ⟨acc1, s2, b1⟩ := v2
                rw [hcc] at h
                simp only [] at h
                obtain ⟨inner, s1x, hre⟩ := readCompressed_ok_inv hcc
                obtain ⟨hbm, hin⟩ := ih ⟨inner, false⟩ acc capa buf acc1 s1x b1 hre
                obtain ⟨hbm2, hout⟩ := ih s2 acc1 capa b1 evs s' buf' h
                refine ⟨Nat.le_trans hbm hbm2, ?_⟩
                intro e he
                rcases hout e he with hmem | hlen
                · rcases hin e hmem with h1 | h2m
                  · exact Or.inl h1
                  · exact Or.inr (Nat.le_trans h2m hbm2)
                · exact Or.inr hlen
            · rw [if_neg hcp] at h; cases h

/-- C8: on a successful `ReadBatch`, the reusable decode buffer's length is
monotonically non-decreasing (never shrunk) and ends at least as large as
every event payload of the returned Batch — i.e. at least the largest
single payload seen; each emitted payload is the value read from the wire
(payloads are pure values in the model, so buffer reuse cannot alter an
already-returned event). -/
theorem C8_buffer_growth (inflate : List Nat → Option (List Nat × Nat))
    (fuel : Nat) (r : Reader) (bytes : List Nat) (tr : List DLAction)
    (b : Batch) (rest : List Nat) (bl : Nat)
    (h : ReadBatch inflate fuel r bytes = (tr, .ok (some b, rest, bl))) :
    r.bufLen ≤ bl ∧ ∀ e ∈ b.events, e.length ≤ bl := by
  unfold ReadBatch at h
  split at h
  · simp at h
  · split at h
    · simp at h
    · simp only [] at h
      split at h
      · simp at h
      · split at h
        · simp at h
        · next events s2 buf1 heq =>
          simp only [Prod.mk.injEq, Except.ok.injEq, Option.some.injEq] at h
          obtain ⟨-, hb, -, hbl⟩ := h
          obtain ⟨hmono, hall⟩ := readEvents_buf inflate fuel _ [] _ r.bufLen
            events s2 buf1 heq
          subst hbl
          refine ⟨hmono, ?_⟩
          intro e he
          rw [← hb] at he
          rcases hall e he with hmem | hlen
          · simp at hmem
          · exact hlen

/-- C8 witness: two data frames with payloads of sizes 2 and 3 grow the
buffer from 0 to 3, bounding both payloads. -/
theorem C8_buffer_growth_witness :
    (Reader.mk 5 .plain (fun _ => none) 0).bufLen ≤ 3 ∧
      ∀ e ∈ (Batch.mk [[1, 2], [3, 4, 5]] none).events, e.length ≤ 3 :=
  C8_buffer_growth idInflate 2 ⟨5, .plain, (fun _ => none), 0⟩
    (CodeVersion :: CodeWindowSize ::
      (enc32 2 ++ (CodeVersion :: CodeJSONDataFrame ::
        (enc32 0 ++ (enc32 2 ++ ([1, 2] ++ (CodeVersion :: CodeJSONDataFrame ::
          (enc32 1 ++ (enc32 3 ++ ([3, 4, 5] ++ []))))))))))
    [DLAction.clear, DLAction.set 5] ⟨[[1, 2], [3, 4, 5]], none⟩ [] 3 (by rfl)

/-- C9: the deadline discipline of `ReadBatch`.  (1) Every call first
clears the read deadline and arms at most one deadline afterwards, always
with the configured per-batch timeout (the trace is `[clear]` or `[clear,
set timeout]`).  (2) On a well-formed window header the deadline is armed
exactly when the declared count is non-zero.  (3) If the declared count is
non-zero and no further bytes arrive, `ReadBatch` fails with the timeout
error. -/
theorem C9_deadline_discipline (inflate : List Nat → Option (List Nat × Nat))
    (fuel : Nat) (r : Reader) (bytes cb rest : List Nat)
    (hcb : cb.length = 4) (hfuel : 1 ≤ fuel) :
    ((ReadBatch inflate fuel r bytes).1 = [DLAction.clear] ∨
      (ReadBatch inflate fuel r bytes).1 =
        [DLAction.clear, DLAction.set r.timeout]) ∧
    ((ReadBatch inflate fuel r
        (CodeVersion :: CodeWindowSize :: (cb ++ rest))).1 =
      if beU32 cb = 0 then [DLAction.clear]
      else [DLAction.clear, DLAction.set r.timeout]) ∧
    (beU32 cb ≠ 0 →
      ReadBatch inflate fuel r (CodeVersion :: CodeWindowSize :: cb) =
        ([DLAction.clear, DLAction.set r.timeout], .error .timeoutErr)) := by
  refine ⟨?_, ?_, ?_⟩
  · unfold ReadBatch
    split
    · exact Or.inl rfl
    · split
      · exact Or.inl rfl
      · simp only []
        split
        · exact Or.inl rfl
        · split
          · exact Or.inr rfl
          · exact Or.inr rfl
  · have h6 : readFull ⟨CodeVersion :: CodeWindowSize :: (cb ++ rest),
        false⟩ 6 =
        .ok (CodeVersion :: CodeWindowSize :: cb, ⟨rest, false⟩) := by
      have hap := @readFull_append (CodeVersion :: CodeWindowSize :: cb)
        rest false 6 (by simp [hcb])
      simpa using hap
    unfold ReadBatch
    rw [h6]
    simp only [List.headI, List.tail_cons, ne_eq, not_true, false_and,
      if_false, List.drop_succ_cons, List.drop_zero]
    by_cases hz : beU32 cb = 0
    · rw [if_pos hz, if_pos hz]
    · rw [if_neg hz, if_neg hz]
      split <;> rfl
  · intro hnz
    have h6 : readFull ⟨CodeVersion :: CodeWindowSize :: cb, false⟩ 6 =
        .ok (CodeVersion :: CodeWindowSize :: cb, ⟨[], false⟩) := by
      have hap := @readFull_append (CodeVersion :: CodeWindowSize :: cb)
        [] false 6 (by simp [hcb])
      simpa using hap
    unfold ReadBatch
    rw [h6]
    simp only [List.headI, List.tail_cons, ne_eq, not_true, false_and,
      if_false, List.drop_succ_cons, List.drop_zero]
    rw [if_neg hnz]
    obtain ⟨f, rfl⟩ : ∃ f, fuel = f + 1 := ⟨fuel - 1, by omega⟩
    rw [readEvents]
    rw [if_pos (show ([] : List (List Nat)).length < beU32 cb by
      simpa using Nat.pos_of_ne_zero hnz)]
    have hrf : readFull ⟨[], true⟩ 2 = .error .timeoutErr := rfl
    rw [hrf]

/-- C9 witness: part (3) of the theorem at a concrete non-zero window header
followed by no bytes. -/
theorem C9_deadline_discipline_witness :
    ReadBatch idInflate 1 ⟨5, .plain, (fun _ => none), 0⟩
        (CodeVersion :: CodeWindowSize :: [0, 0, 0, 1]) =
      ([DLAction.clear, DLAction.set 5], .error .timeoutErr) :=
  (C9_deadline_discipline idInflate 1 ⟨5, .plain, (fun _ => none), 0⟩
    [] [0, 0, 0, 1] [] rfl (by omega)).2.2 (by decide)

end GoLumber
